import Mathlib

/-!
# Verification of the Chimera state-evolution engine (`src/chimera.py`)

A shallow embedding of the deterministic core of the repository: the SHA-256
hash-chain state generator (`StateEvaluator.prime` / `StateEvaluator.evaluate`),
the value mixer (`QMixerNetwork.mix_q_values`), the diagonal-average computer
(`EWCFisherMatrix.compute_fisher_diagonal`) and the threshold loop of
`ResonanceEngine.run`.

Conventions of the embedding:
* Python `bytes` and `str` values that flow into hashes are `List Nat`
  (one entry per byte, each `< 256`); ASCII is used for the literal characters.
* Python floats are idealised as rationals `ℚ` (the spec speaks of real
  numbers; every quantity here is a finite sum of dyadic-style rationals).
* SHA-256 is implemented concretely (FIPS 180-4) on byte lists.
* Fallible Python operations (the `%` with zero modulus in `evaluate`)
  are modelled with `Option`.
-/

namespace Chimera

/-- 2^32, the word modulus of SHA-256. -/
def w32 : Nat := 4294967296

/-- Right rotation of a 32-bit word. -/
def rotr (n x : Nat) : Nat := ((x >>> n) ||| (x <<< (32 - n))) % w32

/-- SHA-256 `Ch` function: `(e ∧ f) ⊕ (¬e ∧ g)`. -/
def shaCh (e f g : Nat) : Nat := (e &&& f) ^^^ (((w32 - 1) ^^^ e) &&& g)

/-- SHA-256 `Maj` function. -/
def shaMaj (a b c : Nat) : Nat := (a &&& b) ^^^ (a &&& c) ^^^ (b &&& c)

/-- SHA-256 big Σ₀. -/
def bigSigma0 (x : Nat) : Nat := rotr 2 x ^^^ rotr 13 x ^^^ rotr 22 x

/-- SHA-256 big Σ₁. -/
def bigSigma1 (x : Nat) : Nat := rotr 6 x ^^^ rotr 11 x ^^^ rotr 25 x

/-- SHA-256 small σ₀. -/
def smallSigma0 (x : Nat) : Nat := rotr 7 x ^^^ rotr 18 x ^^^ (x >>> 3)

/-- SHA-256 small σ₁. -/
def smallSigma1 (x : Nat) : Nat := rotr 17 x ^^^ rotr 19 x ^^^ (x >>> 10)

/-- The 64 SHA-256 round constants. -/
def shaK : List Nat :=
  [1116352408, 1899447441, 3049323471, 3921009573, 961987163,
   1508970993, 2453635748, 2870763221, 3624381080, 310598401,
   607225278, 1426881987, 1925078388, 2162078206, 2614888103,
   3248222580, 3835390401, 4022224774, 264347078, 604807628,
   770255983, 1249150122, 1555081692, 1996064986, 2554220882,
   2821834349, 2952996808, 3210313671, 3336571891, 3584528711,
   113926993, 338241895, 666307205, 773529912, 1294757372,
   1396182291, 1695183700, 1986661051, 2177026350, 2456956037,
   2730485921, 2820302411, 3259730800, 3345764771, 3516065817,
   3600352804, 4094571909, 275423344, 430227734, 506948616,
   659060556, 883997877, 958139571, 1322822218, 1537002063,
   1747873779, 1955562222, 2024104815, 2227730452, 2361852424,
   2428436474, 2756734187, 3204031479, 3329325298]

/-- The eight 32-bit words of a SHA-256 hash state. -/
structure Hash8 where
  a : Nat
  b : Nat
  c : Nat
  d : Nat
  e : Nat
  f : Nat
  g : Nat
  h : Nat

/-- The SHA-256 initial hash value. -/
def initH : Hash8 :=
  ⟨1779033703, 3144134277, 1013904242, 2773480762,
   1359893119, 2600822924, 528734635, 1541459225⟩

/-- SHA-256 padding: append `0x80`, zeros to 56 mod 64, then the bit length
as 8 big-endian bytes. -/
def padMsg (msg : List Nat) : List Nat :=
  let L := msg.length
  let k := (120 - (L + 1) % 64) % 64
  msg ++ [128] ++ List.replicate k 0 ++
    (List.range 8).map (fun i => ((8 * L) >>> (56 - 8 * i)) % 256)

/-- The sixteen initial schedule words of a 64-byte chunk (big-endian). -/
def chunkWords (chunk : List Nat) : List Nat :=
  (List.range 16).map (fun j =>
    chunk.getD (4 * j) 0 * 16777216 + chunk.getD (4 * j + 1) 0 * 65536 +
    chunk.getD (4 * j + 2) 0 * 256 + chunk.getD (4 * j + 3) 0)

/-- One message-schedule extension step: append
`σ₁(w[t-2]) + w[t-7] + σ₀(w[t-15]) + w[t-16] mod 2^32`. -/
def schedStep (ws : List Nat) : List Nat :=
  ws ++ [(smallSigma1 (ws.getD (ws.length - 2) 0) + ws.getD (ws.length - 7) 0 +
          smallSigma0 (ws.getD (ws.length - 15) 0) + ws.getD (ws.length - 16) 0) % w32]

/-- The full 64-word message schedule of a chunk. -/
def schedule (chunk : List Nat) : List Nat :=
  schedStep^[48] (chunkWords chunk)

/-- One SHA-256 compression round. -/
def shaRound (s : Hash8) (k w : Nat) : Hash8 :=
  let t1 := (s.h + bigSigma1 s.e + shaCh s.e s.f s.g + k + w) % w32
  let t2 := (bigSigma0 s.a + shaMaj s.a s.b s.c) % w32
  ⟨(t1 + t2) % w32, s.a, s.b, s.c, (s.d + t1) % w32, s.e, s.f, s.g⟩

/-- Compress one 64-byte chunk into the running hash state. -/
def compressChunk (st : Hash8) (chunk : List Nat) : Hash8 :=
  let ws := schedule chunk
  let t := (List.range 64).foldl (fun s i => shaRound s (shaK.getD i 0) (ws.getD i 0)) st
  ⟨(st.a + t.a) % w32, (st.b + t.b) % w32, (st.c + t.c) % w32, (st.d + t.d) % w32,
   (st.e + t.e) % w32, (st.f + t.f) % w32, (st.g + t.g) % w32, (st.h + t.h) % w32⟩

/-- The four big-endian bytes of a 32-bit word. -/
def wordBytes (w : Nat) : List Nat :=
  [w / 16777216 % 256, w / 65536 % 256, w / 256 % 256, w % 256]

/-- SHA-256 of a byte list, as its 32 digest bytes (Python `.digest()`). -/
def sha256 (msg : List Nat) : List Nat :=
  let p := padMsg msg
  let chunks := (List.range (p.length / 64)).map (fun i => (p.drop (64 * i)).take 64)
  let fin := chunks.foldl compressChunk initH
  wordBytes fin.a ++ wordBytes fin.b ++ wordBytes fin.c ++ wordBytes fin.d ++
  wordBytes fin.e ++ wordBytes fin.f ++ wordBytes fin.g ++ wordBytes fin.h

/-- The lowercase hex character (as an ASCII byte) of a digit `< 16`. -/
def hexDigitChar (d : Nat) : Nat := if d < 10 then 48 + d else 87 + d

/-- Lowercase hex encoding of a byte list, as ASCII bytes
(Python `bytes.hex()` / `hexdigest()`). -/
def hexBytes (bs : List Nat) : List Nat :=
  (bs.map (fun b => [hexDigitChar (b / 16), hexDigitChar (b % 16)])).flatten

/-- SHA-256 hex digest of a byte list, as the 64 ASCII bytes of the lowercase
hex string (Python `hashlib.sha256(m).hexdigest().encode()`). -/
def sha256hex (msg : List Nat) : List Nat := hexBytes (sha256 msg)

/-- The value of one ASCII hex character (`0-9`, `A-F`, `a-f`). -/
def hexCharVal (c : Nat) : Nat :=
  if c ≤ 57 then c - 48 else if c ≤ 70 then c - 55 else c - 87

/-- Python `int(s, 16)` on a string of hex characters given as ASCII bytes. -/
def natOfHexAscii (s : List Nat) : Nat :=
  s.foldl (fun a c => 16 * a + hexCharVal c) 0

/-- Python `str(n)` for a natural number, as ASCII bytes. -/
def pyDecimal (n : Nat) : List Nat := (Nat.toDigits 10 n).map Char.toNat

/-- Python index normalisation for step-1 slices: negative indices count from
the end, then the index is clamped to `[0, len]`. -/
def pyIndex (len : Nat) (i : Int) : Nat :=
  min ((if i < 0 then i + len else i).toNat) len

/-- Python step-1 slice `data[a:b]` on byte lists, with full negative-index
and clamping semantics. -/
def pySlice (data : List Nat) (a b : Int) : List Nat :=
  (data.take (pyIndex data.length b)).drop (pyIndex data.length a)

/-- `StateEvaluator` (src/chimera.py:141-146): the serialized lexicon bytes
`str(vectors).encode()`, the complexity factor and the loaded model blob. -/
structure StateEvaluator where
  vectors_str : List Nat
  complexity : Nat
  model_data : List Nat

/-- The hash-chain of `StateEvaluator.prime`: starting from `SHA256(seed)`,
`n` further rounds of `digest := SHA256(digest || seed)` on raw digests. -/
def primeLoop (seed : List Nat) : Nat → List Nat → List Nat
  | 0, cur => cur
  | n + 1, cur => primeLoop seed n (sha256 (cur ++ seed))

/-- `StateEvaluator.prime` (src/chimera.py:148-152): hash the seed, iterate
`complexity` times `digest := SHA256(digest || seed)`, return the hex string
(as ASCII bytes). -/
def StateEvaluator.prime (ev : StateEvaluator) (seed : List Nat) : List Nat :=
  hexBytes (primeLoop seed ev.complexity (sha256 seed))

/-- The read-offset computation of `StateEvaluator.evaluate`
(src/chimera.py:161): `int(state_hash[:16], 16) % (model_size - 1024)` on
Python ints. `none` models the `ZeroDivisionError` raised when
`model_size - 1024 == 0`; otherwise Python `%` is floored modulus
(`Int.fmod`). -/
def StateEvaluator.readIndex? (ev : StateEvaluator) (state_hash : List Nat) :
    Option Int :=
  let modulus : Int := (ev.model_data.length : Int) - 1024
  if modulus = 0 then none else
  some (Int.fmod (natOfHexAscii (state_hash.take 16) : Int) modulus)

/-- `StateEvaluator.evaluate` (src/chimera.py:154-175). The state hash is the
64-character hex string of the previous digest, as ASCII bytes. Returns the
next hex digest and the 5 agent values; `none` propagates the
`ZeroDivisionError` of the offset computation. -/
def StateEvaluator.evaluate (ev : StateEvaluator) (state_hash : List Nat) :
    Option (List Nat × List ℚ) :=
  match ev.readIndex? state_hash with
  | none => none
  | some model_read_index =>
  let model_slice := pySlice ev.model_data model_read_index (model_read_index + 1024)
  let next_hash := sha256hex (state_hash ++ ev.vectors_str ++ model_slice)
  let agent_q_values := (List.range 5).map (fun i =>
    let agent_input := next_hash ++ [95] ++ pyDecimal i ++
      pySlice model_slice (i * 200) ((i + 1) * 200)
    ((natOfHexAscii ((sha256hex agent_input).take 8) : ℚ) / 0xFFFFFFFF))
  some (next_hash, agent_q_values)

/-- `QMixerNetwork.__init__` (src/chimera.py:129-132): uniform mixing weights
`1/num_agents` for each agent. -/
def mixing_weights (num_agents : Nat) : List ℚ :=
  List.replicate num_agents (1 / (num_agents : ℚ))

/-- Byte encoding of one rational, used in the model of Python
`str(agent_q_values)`. -/
def qRepr (q : ℚ) : List Nat :=
  (if q < 0 then [45] else []) ++ pyDecimal q.num.natAbs ++ [47] ++ pyDecimal q.den

/-- Model of Python `str(list_of_floats).encode()`: Python's decimal float
repr is abstracted as a concrete byte encoding of the rational list
(brackets, comma-space separators, one token per element). Every verified
property of the mixer is independent of the exact bytes of this encoding:
the noise seed is only fed into SHA-256 and the output bound holds for all
inputs. -/
def pyListRepr (qs : List ℚ) : List Nat :=
  [91] ++ (List.intersperse [44, 32] (qs.map qRepr)).flatten ++ [93]

/-- `QMixerNetwork.mix_q_values` (src/chimera.py:133-138): the weighted sum
`Σ q·w` over `zip(agent_q_values, mixing_weights)` plus the hash-derived
noise `(int(SHA256(str(qs))[:8],16)/0xFFFFFFFF - 0.5) * 0.1`. -/
def mix_q_values (num_agents : Nat) (agent_q_values : List ℚ) : ℚ :=
  let total_q := ((agent_q_values.zip (mixing_weights num_agents)).map
    (fun p => p.1 * p.2)).sum
  let noise_hash := sha256hex (pyListRepr agent_q_values)
  let noise := ((natOfHexAscii (noise_hash.take 8) : ℚ) / 0xFFFFFFFF - 1/2) * (1/10)
  total_q + noise

/-- `EWCFisherMatrix.compute_fisher_diagonal` (src/chimera.py:120-126):
`num_params` hash-derived scalars `int(SHA256(hash_i)[:8],16)/0xFFFFFFFF`
(with `hash_i = f"{state_hash}_{i}"`), averaged. Python raises on
`num_params = 0`; callers guard that case (`ℚ` division by zero is `0`
here and is never relied on). -/
def compute_fisher_diagonal (num_params : Nat) (state_hash : List Nat) : ℚ :=
  let fisher_diagonal := (List.range num_params).map (fun i =>
    ((natOfHexAscii ((sha256hex (state_hash ++ [95] ++ pyDecimal i)).take 8) : ℚ) /
      0xFFFFFFFF))
  fisher_diagonal.sum / (num_params : ℚ)

/-- Python dict insertion: duplicate keys keep their first position, so the
key order of `SymbolicProcessor.vectors` is the first occurrence of each
name in lexicon order. -/
def dedupKeepFirst (l : List (List Nat)) : List (List Nat) :=
  l.foldl (fun acc n => if n ∈ acc then acc else acc ++ [n]) []

/-- `str(self.vectors).encode()` (src/chimera.py:143): the Python repr of the
dict `{name: SHA256-hex(name)}` built by `SymbolicProcessor.load_lexicon`
(src/chimera.py:108-110), for names that are ASCII without quote or backslash
characters: `{'n1': 'h1', 'n2': 'h2'}` as bytes. -/
def lexiconVectorsStr (names : List (List Nat)) : List Nat :=
  [123] ++ (List.intersperse [44, 32] ((dedupKeepFirst names).map (fun nm =>
    [39] ++ nm ++ [39, 58, 32, 39] ++ sha256hex nm ++ [39]))).flatten ++ [125]

/-- The engine states (src/chimera.py:41-42). -/
inductive State
  | IDLE
  | BOOTSTRAP
  | KERNEL_INIT
  | PRIMING
  | ACTIVE
  | CRITICAL
deriving DecidableEq, Repr

/-- The distinct terminal reasons of `ResonanceEngine.run`
(src/chimera.py:247-254). -/
inductive FailReason
  | cascade
  | decoherence
  | timeout
  | unhandled
deriving DecidableEq, Repr

/-- The reason string passed to `handle_failure` for each terminal reason. -/
def reasonText : FailReason → String
  | .cascade => "Resonance Cascade (Coherence Collapse)"
  | .decoherence => "State Decoherence (Volatility Exceeded)"
  | .timeout => "Convergence Timeout"
  | .unhandled => "UnhandledException"

/-- A replay-buffer entry (src/chimera.py:238): the first 8 hex characters of
the state hash, the action name, and the reward. Python formats the reward as
the display string `f"{total_q:.3f}"`; the embedding keeps the exact value. -/
structure Memory where
  statePre : List Nat
  actionName : List Nat
  reward : ℚ
deriving DecidableEq

/-- `deque(maxlen=10).append` (src/chimera.py:183,239): when full, the oldest
entry is evicted. -/
def pushMem (buf : List Memory) (m : Memory) : List Memory :=
  if buf.length = 10 then buf.drop 1 ++ [m] else buf ++ [m]

/-- The run-time configuration scalars read from `config.ini`. -/
structure EngineConfig where
  complexity_factor : Nat
  max_iterations : Nat
  coherence_min : ℚ
  volatility_max : ℚ

/-- The decoded input files of a run: priming seed, lexicon names, model
blob. -/
structure EngineInputs where
  seed : List Nat
  names : List (List Nat)
  model_data : List Nat

/-- The static per-run context of the ACTIVE loop: the evaluator, the Fisher
parameter count `len(vectors)` and the action list `vector_names`. -/
structure RunCtx where
  ev : StateEvaluator
  numParams : Nat
  vectorNames : List (List Nat)

/-- Build the run context as `ResonanceEngine.run` does
(src/chimera.py:208-213). -/
def mkCtx (cfg : EngineConfig) (inp : EngineInputs) : RunCtx :=
  { ev := ⟨lexiconVectorsStr inp.names, cfg.complexity_factor, inp.model_data⟩,
    numParams := (dedupKeepFirst inp.names).length,
    vectorNames := inp.names }

/-- Everything one ACTIVE iteration computes (src/chimera.py:232-239). -/
structure IterRecord where
  nextHash : List Nat
  agents : List ℚ
  totalQ : ℚ
  fisherMean : ℚ
  coherence : ℚ
  volatility : ℚ
  actionName : List Nat
  memory : Memory

/-- One iteration of the ACTIVE loop body (src/chimera.py:232-239), up to the
threshold checks. `none` models an uncaught exception: the
`ZeroDivisionError` of `evaluate` on a 1024-byte blob, or the one raised by
`compute_fisher_diagonal` / `% len(vector_names)` on an empty lexicon. -/
def iterStep (ctx : RunCtx) (state_hash : List Nat) : Option IterRecord :=
  match ctx.ev.evaluate state_hash with
  | none => none
  | some (next, qs) =>
    if ctx.numParams = 0 then none else
    let total_q := mix_q_values 5 qs
    let fisher_mean := compute_fisher_diagonal ctx.numParams next
    let coherence := 1 - fisher_mean
    let volatility := |total_q - 1/2| * 2
    let action_id := natOfHexAscii ((next.drop 24).take 4) % ctx.vectorNames.length
    let action_name := ctx.vectorNames.getD action_id []
    some { nextHash := next, agents := qs, totalQ := total_q,
           fisherMean := fisher_mean, coherence := coherence,
           volatility := volatility, actionName := action_name,
           memory := ⟨next.take 8, action_name, total_q⟩ }

/-- The result of the ACTIVE loop: the per-iteration trace (each executed
iteration's record with the buffer snapshot right after its append), the
final buffer, and the terminal reason. -/
structure RunOutcome where
  trace : List (IterRecord × List Memory)
  buffer : List Memory
  reason : FailReason

/-- The ACTIVE loop of `ResonanceEngine.run` (src/chimera.py:231-252): at
most `fuel = max_iterations` iterations; each iteration appends its memory,
then fails with `cascade` when `coherence < coherence_min`, else with
`decoherence` when `volatility > volatility_max`; exhausting the iterations
fails with `timeout` (`"Convergence Timeout"`). -/
def runActive (cfg : EngineConfig) (ctx : RunCtx) :
    List Nat → List Memory → Nat → RunOutcome
  | _, buf, 0 => ⟨[], buf, .timeout⟩
  | h, buf, fuel + 1 =>
    match iterStep ctx h with
    | none => ⟨[], buf, .unhandled⟩
    | some r =>
      let buf' := pushMem buf r.memory
      if r.coherence < cfg.coherence_min then ⟨[(r, buf')], buf', .cascade⟩
      else if cfg.volatility_max < r.volatility then ⟨[(r, buf')], buf', .decoherence⟩
      else
        let o := runActive cfg ctx r.nextHash buf' fuel
        ⟨(r, buf') :: o.trace, o.buffer, o.reason⟩

/-- The memories the loop body would append over `n` iterations, independent
of the threshold checks (the append at src/chimera.py:239 precedes both
checks, so the failing iteration's memory is also appended). -/
def memSeq (ctx : RunCtx) : List Nat → Nat → List Memory
  | _, 0 => []
  | h, n + 1 =>
    match iterStep ctx h with
    | none => []
    | some r => r.memory :: memSeq ctx r.nextHash n

/-- `ResonanceEngine.run` (src/chimera.py:198-256) with all input files
present and decoded (file I/O is out of scope): the linear state sequence
IDLE (construction), BOOTSTRAP, KERNEL_INIT, PRIMING, ACTIVE (the set_state
calls, in program order), the primed hash, the ACTIVE loop, and the terminal
CRITICAL set by `handle_failure`. -/
def engineRun (cfg : EngineConfig) (inp : EngineInputs) : List State × RunOutcome :=
  let ctx := mkCtx cfg inp
  let state_hash := ctx.ev.prime inp.seed
  let o := runActive cfg ctx state_hash [] cfg.max_iterations
  ([State.IDLE, State.BOOTSTRAP, State.KERNEL_INIT, State.PRIMING,
    State.ACTIVE, State.CRITICAL], o)

/-- An ASCII hex character: `0-9`, `A-F` or `a-f`. -/
def isHexChar (c : Nat) : Bool :=
  (48 ≤ c && c ≤ 57) || (65 ≤ c && c ≤ 70) || (97 ≤ c && c ≤ 102)

/-- The ASCII bytes of the string `"test"`, the seed of the spec's worked
example. -/
def testSeed : List Nat := [116, 101, 115, 116]

/-- The priming chain as the spec words it: `SHA256(seed)`, then iterate
`digest := SHA256(digest || seed)`; `specPrimeDigest seed c` is the digest
after exactly `c` iterations. -/
def specPrimeDigest (seed : List Nat) : Nat → List Nat
  | 0 => sha256 seed
  | n + 1 => sha256 (specPrimeDigest seed n ++ seed)

/-- The window offset as the spec words it:
`int(previous_digest[:16],16) mod (blob_size - 1024)`, on naturals. -/
def specReadIndex (model : List Nat) (state_hash : List Nat) : Nat :=
  natOfHexAscii (state_hash.take 16) % (model.length - 1024)

/-- The 1024-byte window the spec describes, at the derived offset. -/
def specWindow (model : List Nat) (state_hash : List Nat) : List Nat :=
  (model.drop (specReadIndex model state_hash)).take 1024

/-- The next digest as the spec words it:
`SHA256(previous_digest || serialized_lexicon || window_bytes)` in hex. -/
def specNext (vstr model state_hash : List Nat) : List Nat :=
  sha256hex (state_hash ++ vstr ++ specWindow model state_hash)

/-- The i-th agent value as the spec words it:
`int(SHA256(next_digest || "_" || i || window_slice_i)[:8],16) / 0xFFFFFFFF`
with `window_slice_i` the bytes `[i*200, (i+1)*200)` of the window. -/
def specAgent (vstr model state_hash : List Nat) (i : Nat) : ℚ :=
  (natOfHexAscii ((sha256hex (specNext vstr model state_hash ++ [95] ++ pyDecimal i ++
    ((specWindow model state_hash).drop (i * 200)).take 200)).take 8) : ℚ) / 0xFFFFFFFF

/-- The noise term of the mixer as the spec words it:
`(int(SHA256(str(agent_values))[:8],16)/0xFFFFFFFF - 0.5) * 0.1`. -/
def noiseOf (qs : List ℚ) : ℚ :=
  ((natOfHexAscii ((sha256hex (pyListRepr qs)).take 8) : ℚ) / 0xFFFFFFFF - 1/2) * (1/10)

/-- The digest/agents sequence of the ACTIVE loop at evaluator level: the
`n`-th iterated application of `evaluate` starting from a primed digest. -/
def evalIter (ev : StateEvaluator) : List Nat → Nat → Option (List Nat × List ℚ)
  | h, 0 => ev.evaluate h
  | h, n + 1 =>
    match ev.evaluate h with
    | none => none
    | some (h2, _) => evalIter ev h2 n

/-- The state digest at the start of iteration `k` of the ACTIVE loop
(`[]` after a failed step, which the theorems exclude). -/
def hashBefore (ctx : RunCtx) : List Nat → Nat → List Nat
  | h, 0 => h
  | h, k + 1 =>
    match iterStep ctx h with
    | none => []
    | some r => hashBefore ctx r.nextHash k

/-- The agent values recomputed from a state digest alone (what iteration
`k` derives from the digest it starts from). -/
def agentsFromDigest (ctx : RunCtx) (h : List Nat) : List ℚ :=
  match iterStep ctx h with
  | none => []
  | some r => r.agents

/-- The last (up to) ten entries of a memory list: the contents a
`deque(maxlen=10)` holds after the whole list was appended in order. -/
def lastTen (l : List Memory) : List Memory := l.drop (l.length - 10)

/-- Neither stability threshold is breached by this iteration record. -/
def noBreach (cfg : EngineConfig) (r : IterRecord) : Prop :=
  ¬ r.coherence < cfg.coherence_min ∧ ¬ cfg.volatility_max < r.volatility

end Chimera


namespace Chimera

/-! ## Shape and range facts about the hash encodings -/

theorem sha256_length (msg : List Nat) : (sha256 msg).length = 32 := by
  simp [sha256, wordBytes]

theorem sha256_lt (msg : List Nat) : ∀ b ∈ sha256 msg, b < 256 := by
  intro b hb
  simp [sha256, wordBytes] at hb
  omega

theorem hexBytes_length (bs : List Nat) : (hexBytes bs).length = 2 * bs.length := by
  induction bs with
  | nil => simp [hexBytes]
  | cons b t ih => simp [hexBytes] at ih ⊢; omega

theorem hexBytes_val_lt (bs : List Nat) (hb : ∀ b ∈ bs, b < 256) :
    ∀ c ∈ hexBytes bs, hexCharVal c < 16 := by
  intro c hc
  simp only [hexBytes, List.mem_flatten, List.mem_map] at hc
  obtain ⟨l, ⟨b, hbmem, rfl⟩, hcl⟩ := hc
  have hblt : b < 256 := hb b hbmem
  simp only [List.mem_cons, List.not_mem_nil, or_false] at hcl
  rcases hcl with rfl | rfl <;> · simp only [hexCharVal, hexDigitChar]; split_ifs <;> omega

theorem natOfHexAux (s : List Nat) (h : ∀ c ∈ s, hexCharVal c < 16) :
    ∀ acc, s.foldl (fun a c => 16 * a + hexCharVal c) acc < (acc + 1) * 16 ^ s.length := by
  induction s with
  | nil => intro acc; simp
  | cons c t ih =>
    intro acc
    have hc : hexCharVal c < 16 := h c (List.mem_cons_self c t)
    have ht : ∀ x ∈ t, hexCharVal x < 16 := fun x hx => h x (List.mem_cons_of_mem c hx)
    have h1 := ih ht (16 * acc + hexCharVal c)
    have h2 : (16 * acc + hexCharVal c + 1) * 16 ^ t.length ≤ (acc + 1) * 16 ^ (t.length + 1) := by
      have hle : 16 * acc + hexCharVal c + 1 ≤ 16 * (acc + 1) := by omega
      calc (16 * acc + hexCharVal c + 1) * 16 ^ t.length
          ≤ (16 * (acc + 1)) * 16 ^ t.length := Nat.mul_le_mul_right _ hle
        _ = (acc + 1) * 16 ^ (t.length + 1) := by ring
    simp only [List.foldl_cons, List.length_cons]
    exact lt_of_lt_of_le h1 h2

theorem natOfHexAscii_lt (s : List Nat) (h : ∀ c ∈ s, hexCharVal c < 16) :
    natOfHexAscii s < 16 ^ s.length := by
  have h0 := natOfHexAux s h 0
  rw [show (0 + 1) * 16 ^ s.length = 16 ^ s.length by ring] at h0
  exact h0

theorem sha256hex_length (msg : List Nat) : (sha256hex msg).length = 64 := by
  simp [sha256hex, hexBytes_length, sha256_length]

theorem sha256hex_val_lt (msg : List Nat) : ∀ c ∈ sha256hex msg, hexCharVal c < 16 :=
  hexBytes_val_lt _ (sha256_lt msg)

/-- The leading 8 hex characters of a SHA-256 hex digest parse to at most
`0xFFFFFFFF`. -/
theorem hashVal8_le (msg : List Nat) :
    natOfHexAscii ((sha256hex msg).take 8) ≤ 0xFFFFFFFF := by
  have h1 : ∀ c ∈ (sha256hex msg).take 8, hexCharVal c < 16 :=
    fun c hc => sha256hex_val_lt msg c (List.take_subset _ _ hc)
  have h2 := natOfHexAscii_lt _ h1
  have h3 : ((sha256hex msg).take 8).length = 8 := by
    simp [List.length_take, sha256hex_length]
  rw [h3] at h2
  norm_num at h2 ⊢
  omega

/-- `int(SHA256(m)[:8],16)/0xFFFFFFFF` is nonnegative. -/
theorem hashUnit_nonneg (msg : List Nat) :
    0 ≤ (natOfHexAscii ((sha256hex msg).take 8) : ℚ) / 0xFFFFFFFF := by
  positivity

/-- `int(SHA256(m)[:8],16)/0xFFFFFFFF` is at most one. -/
theorem hashUnit_le_one (msg : List Nat) :
    (natOfHexAscii ((sha256hex msg).take 8) : ℚ) / 0xFFFFFFFF ≤ 1 := by
  rw [div_le_one (by norm_num)]
  exact_mod_cast hashVal8_le msg

/-- The Fisher diagonal mean is nonnegative. -/
theorem fisher_nonneg (np : Nat) (h : List Nat) :
    0 ≤ compute_fisher_diagonal np h := by
  unfold compute_fisher_diagonal
  apply div_nonneg
  · apply List.sum_nonneg
    intro x hx
    simp only [List.mem_map, List.mem_range] at hx
    obtain ⟨i, _, rfl⟩ := hx
    exact hashUnit_nonneg _
  · positivity

/-- The Fisher diagonal mean is at most one when there is at least one
parameter. -/
theorem fisher_le_one (np : Nat) (h : List Nat) (hnp : np ≠ 0) :
    compute_fisher_diagonal np h ≤ 1 := by
  unfold compute_fisher_diagonal
  have hpos : (0 : ℚ) < (np : ℚ) := by
    exact_mod_cast Nat.pos_of_ne_zero hnp
  rw [div_le_one hpos]
  calc ((List.range np).map (fun i =>
        ((natOfHexAscii ((sha256hex (h ++ [95] ++ pyDecimal i)).take 8) : ℚ) /
          0xFFFFFFFF))).sum
      ≤ ((List.range np).map (fun i =>
        ((natOfHexAscii ((sha256hex (h ++ [95] ++ pyDecimal i)).take 8) : ℚ) /
          0xFFFFFFFF))).length • (1 : ℚ) := by
        apply List.sum_le_card_nsmul
        intro x hx
        simp only [List.mem_map, List.mem_range] at hx
        obtain ⟨i, _, rfl⟩ := hx
        exact hashUnit_le_one _
    _ = (np : ℚ) := by simp

/-! ## The priming chain -/

theorem primeLoop_succ (seed cur : List Nat) (n : Nat) :
    primeLoop seed (n + 1) cur = primeLoop seed n (sha256 (cur ++ seed)) := rfl

theorem primeLoop_shift (seed : List Nat) :
    ∀ n cur, primeLoop seed n (sha256 (cur ++ seed)) = sha256 (primeLoop seed n cur ++ seed) := by
  intro n
  induction n with
  | zero => intro cur; rfl
  | succ n ih =>
    intro cur
    rw [primeLoop_succ, primeLoop_succ]
    exact ih (sha256 (cur ++ seed))

theorem primeLoop_eq_spec (seed : List Nat) :
    ∀ c, primeLoop seed c (sha256 seed) = specPrimeDigest seed c := by
  intro c
  induction c with
  | zero => rfl
  | succ n ih =>
    show primeLoop seed (n + 1) (sha256 seed) = sha256 (specPrimeDigest seed n ++ seed)
    rw [primeLoop_succ, primeLoop_shift, ih]

/-! ## The evaluate step: offsets, windows, agent values -/

theorem readIndex_of_big (ev : StateEvaluator) (hash : List Nat)
    (h : 1024 < ev.model_data.length) :
    ev.readIndex? hash = some ((specReadIndex ev.model_data hash : Nat) : Int) := by
  unfold StateEvaluator.readIndex? specReadIndex
  have hne : ((ev.model_data.length : Int) - 1024) ≠ 0 := by omega
  simp only [hne, if_false, Option.some_inj]
  have h0 : (0 : Int) ≤ (ev.model_data.length : Int) - 1024 := by omega
  rw [Int.fmod_eq_emod _ h0]
  have hcast : ((ev.model_data.length : Int) - 1024) = ((ev.model_data.length - 1024 : Nat) : Int) := by
    omega
  rw [hcast]
  exact (Int.ofNat_emod _ _).symm

theorem pySlice_natCast (data : List Nat) (a b : Nat) (hab : a ≤ b)
    (hb : b ≤ data.length) :
    pySlice data (a : Int) (b : Int) = (data.drop a).take (b - a) := by
  unfold pySlice pyIndex
  have ha' : ¬((a : Int) < 0) := by omega
  have hb' : ¬((b : Int) < 0) := by omega
  rw [if_neg ha', if_neg hb', Int.toNat_ofNat, Int.toNat_ofNat,
    Nat.min_eq_left hb, Nat.min_eq_left (le_trans hab hb)]
  exact List.drop_take b a data

theorem specReadIndex_le (model hash : List Nat) (h : 1024 < model.length) :
    specReadIndex model hash ≤ model.length - 1025 := by
  unfold specReadIndex
  have := Nat.mod_lt (natOfHexAscii (hash.take 16)) (y := model.length - 1024) (by omega)
  omega

theorem specWindow_length (model hash : List Nat) (h : 1024 < model.length) :
    (specWindow model hash).length = 1024 := by
  unfold specWindow
  have := specReadIndex_le model hash h
  simp only [List.length_take, List.length_drop]
  omega

/-- The core refinement of `StateEvaluator.evaluate`: on a blob strictly
larger than 1024 bytes the Python `Int`/slice semantics collapse to the
natural-number offset, window and agent formulas of the specification. -/
theorem evaluate_eq (ev : StateEvaluator) (hash : List Nat)
    (h : 1024 < ev.model_data.length) :
    ev.evaluate hash = some (specNext ev.vectors_str ev.model_data hash,
      (List.range 5).map (specAgent ev.vectors_str ev.model_data hash)) := by
  have hidx := readIndex_of_big ev hash h
  have hle := specReadIndex_le ev.model_data hash h
  have hwin : pySlice ev.model_data ((specReadIndex ev.model_data hash : Nat) : Int)
      (((specReadIndex ev.model_data hash : Nat) : Int) + 1024)
      = specWindow ev.model_data hash := by
    have hc : (((specReadIndex ev.model_data hash : Nat) : Int) + 1024)
        = ((specReadIndex ev.model_data hash + 1024 : Nat) : Int) := by push_cast; ring
    rw [hc, pySlice_natCast _ _ _ (Nat.le_add_right _ _) (by omega)]
    unfold specWindow
    congr 1
    omega
  simp only [StateEvaluator.evaluate, hidx, hwin, Option.some_inj, Prod.mk.injEq]
  constructor
  · rfl
  · apply List.map_congr_left
    intro i hi
    simp only [List.mem_range] at hi
    have hwl : (specWindow ev.model_data hash).length = 1024 :=
      specWindow_length ev.model_data hash h
    have hs : pySlice (specWindow ev.model_data hash) ((i : Int) * 200)
        (((i : Int) + 1) * 200)
        = ((specWindow ev.model_data hash).drop (i * 200)).take 200 := by
      have h1 : ((i : Int) * 200) = ((i * 200 : Nat) : Int) := by push_cast; ring
      have h2 : (((i : Int) + 1) * 200) = (((i + 1) * 200 : Nat) : Int) := by push_cast; ring
      rw [h1, h2, pySlice_natCast _ _ _ (by omega) (by omega)]
      congr 1
      omega
    unfold specAgent specNext
    rw [hs]

theorem specPrimeDigest_zero (seed : List Nat) : specPrimeDigest seed 0 = sha256 seed := rfl

theorem specPrimeDigest_succ (seed : List Nat) (n : Nat) :
    specPrimeDigest seed (n + 1) = sha256 (specPrimeDigest seed n ++ seed) := rfl

/-- Each spec-side agent value is nonnegative. -/
theorem specAgent_nonneg (vstr model hash : List Nat) (i : Nat) :
    0 ≤ specAgent vstr model hash i :=
  hashUnit_nonneg _

/-- Each spec-side agent value is at most one. -/
theorem specAgent_le_one (vstr model hash : List Nat) (i : Nat) :
    specAgent vstr model hash i ≤ 1 :=
  hashUnit_le_one _

theorem dedupKeepFirst_aux (l : List (List Nat)) :
    ∀ acc, acc ≠ [] →
      l.foldl (fun acc n => if n ∈ acc then acc else acc ++ [n]) acc ≠ [] := by
  induction l with
  | nil => intro acc h; exact h
  | cons n t ih =>
    intro acc h
    simp only [List.foldl_cons]
    apply ih
    by_cases hn : n ∈ acc
    · simpa [hn] using h
    · simp [hn]

/-- A nonempty lexicon yields a nonempty key list. -/
theorem dedupKeepFirst_ne_nil (l : List (List Nat)) (h : l ≠ []) :
    dedupKeepFirst l ≠ [] := by
  rcases l with _ | ⟨x, t⟩
  · exact absurd rfl h
  · unfold dedupKeepFirst
    simp only [List.foldl_cons, List.not_mem_nil, if_false, List.nil_append]
    exact dedupKeepFirst_aux t [x] (by simp)

/-- Inversion of one ACTIVE iteration: a successful `iterStep` came from a
successful `evaluate` and a nonzero parameter count, and its fields are the
loop body formulas (src/chimera.py:232-239). -/
theorem iterStep_inv (ctx : RunCtx) (h : List Nat) (r : IterRecord)
    (hr : iterStep ctx h = some r) :
    ∃ next qs, ctx.ev.evaluate h = some (next, qs)
      ∧ ctx.numParams ≠ 0
      ∧ r.nextHash = next ∧ r.agents = qs
      ∧ r.fisherMean = compute_fisher_diagonal ctx.numParams next
      ∧ r.coherence = 1 - r.fisherMean := by
  rcases hev2 : ctx.ev.evaluate h with _ | ⟨next, qs⟩
  · simp only [iterStep, hev2] at hr
    exact Option.noConfusion hr
  · by_cases hnp : ctx.numParams = 0
    · simp only [iterStep, hev2, if_pos hnp] at hr
      exact Option.noConfusion hr
    · simp only [iterStep, hev2, if_neg hnp] at hr
      injection hr with hr2
      subst hr2
      exact ⟨next, qs, rfl, hnp, rfl, rfl, rfl, rfl⟩

/-- One ACTIVE iteration succeeds whenever the lexicon is nonempty and the
blob exceeds 1024 bytes. -/
theorem iterStep_isSome (ctx : RunCtx) (h : List Nat) (hnp : ctx.numParams ≠ 0)
    (hsz : 1024 < ctx.ev.model_data.length) :
    (iterStep ctx h).isSome := by
  simp only [iterStep, evaluate_eq ctx.ev h hsz, if_neg hnp, Option.isSome_some]

/-- The agent values and coherence of a successful iteration: 5 agent values,
the spec formulas, and `0 ≤ coherence ≤ 1`. -/
theorem iterStep_bounds (ctx : RunCtx) (h : List Nat) (r : IterRecord)
    (hr : iterStep ctx h = some r) (hsz : 1024 < ctx.ev.model_data.length) :
    r.agents = (List.range 5).map (specAgent ctx.ev.vectors_str ctx.ev.model_data h)
      ∧ 0 ≤ r.coherence ∧ r.coherence ≤ 1 := by
  obtain ⟨next, qs, hev2, hnp, hnh, hag, hfm, hco⟩ := iterStep_inv ctx h r hr
  rw [evaluate_eq ctx.ev h hsz, Option.some_inj, Prod.mk.injEq] at hev2
  obtain ⟨hnext, hqs⟩ := hev2
  have hf0 := fisher_nonneg ctx.numParams next
  have hf1 := fisher_le_one ctx.numParams next hnp
  refine ⟨by rw [hag, ← hqs], ?_, ?_⟩
  · rw [hco, hfm]; linarith
  · rw [hco, hfm]; linarith

/-! ## The ACTIVE loop: unfolding equations and the replay buffer -/

theorem runActive_zero (cfg : EngineConfig) (ctx : RunCtx) (h : List Nat)
    (buf : List Memory) : runActive cfg ctx h buf 0 = ⟨[], buf, .timeout⟩ := rfl

theorem runActive_succ_none (cfg : EngineConfig) (ctx : RunCtx) (h : List Nat)
    (buf : List Memory) (fuel : Nat) (hs : iterStep ctx h = none) :
    runActive cfg ctx h buf (fuel + 1) = ⟨[], buf, .unhandled⟩ := by
  simp only [runActive, hs]

theorem runActive_succ_some (cfg : EngineConfig) (ctx : RunCtx) (h : List Nat)
    (buf : List Memory) (fuel : Nat) (r : IterRecord) (hs : iterStep ctx h = some r) :
    runActive cfg ctx h buf (fuel + 1) =
      if r.coherence < cfg.coherence_min then
        ⟨[(r, pushMem buf r.memory)], pushMem buf r.memory, .cascade⟩
      else if cfg.volatility_max < r.volatility then
        ⟨[(r, pushMem buf r.memory)], pushMem buf r.memory, .decoherence⟩
      else
        ⟨(r, pushMem buf r.memory) :: (runActive cfg ctx r.nextHash (pushMem buf r.memory) fuel).trace,
         (runActive cfg ctx r.nextHash (pushMem buf r.memory) fuel).buffer,
         (runActive cfg ctx r.nextHash (pushMem buf r.memory) fuel).reason⟩ := by
  simp only [runActive, hs]

theorem memSeq_zero (ctx : RunCtx) (h : List Nat) : memSeq ctx h 0 = [] := rfl

theorem memSeq_succ_none (ctx : RunCtx) (h : List Nat) (n : Nat)
    (hs : iterStep ctx h = none) : memSeq ctx h (n + 1) = [] := by
  simp only [memSeq, hs]

theorem memSeq_succ_some (ctx : RunCtx) (h : List Nat) (n : Nat) (r : IterRecord)
    (hs : iterStep ctx h = some r) :
    memSeq ctx h (n + 1) = r.memory :: memSeq ctx r.nextHash n := by
  simp only [memSeq, hs]

theorem hashBefore_zero (ctx : RunCtx) (h : List Nat) : hashBefore ctx h 0 = h := rfl

theorem hashBefore_succ_some (ctx : RunCtx) (h : List Nat) (k : Nat) (r : IterRecord)
    (hs : iterStep ctx h = some r) :
    hashBefore ctx h (k + 1) = hashBefore ctx r.nextHash k := by
  simp only [hashBefore, hs]

theorem lastTen_length (l : List Memory) : (lastTen l).length = min l.length 10 := by
  simp only [lastTen, List.length_drop]
  omega

theorem lastTen_length_le (l : List Memory) : (lastTen l).length ≤ 10 := by
  rw [lastTen_length]
  omega

/-- Appending to a full-or-not buffer commutes with taking the last ten of
the underlying history. -/
theorem pushMem_lastTen (l : List Memory) (m : Memory) :
    pushMem (lastTen l) m = lastTen (l ++ [m]) := by
  by_cases h : 10 ≤ l.length
  · have hlen : (lastTen l).length = 10 := by
      simp only [lastTen, List.length_drop]; omega
    unfold pushMem
    rw [if_pos hlen]
    unfold lastTen
    rw [List.drop_drop, List.length_append]
    simp only [List.length_cons, List.length_nil]
    rw [List.drop_append_of_le_length (by omega)]
    rw [show l.length - 10 + 1 = l.length + 1 - 10 from by omega]
  · have hlen : (lastTen l).length ≠ 10 := by
      simp only [lastTen, List.length_drop]; omega
    unfold pushMem
    rw [if_neg hlen]
    unfold lastTen
    rw [show l.length - 10 = 0 from by omega, List.drop_zero, List.length_append]
    simp only [List.length_cons, List.length_nil]
    rw [show l.length + 1 - 10 = 0 from by omega, List.drop_zero]

/-- Buffer invariant of the ACTIVE loop: starting from the last ten of some
history `pre`, every per-iteration snapshot and the final buffer are the last
ten entries of the history extended by the executed iterations, in order. -/
theorem runActive_buffer (cfg : EngineConfig) (ctx : RunCtx) :
    ∀ (fuel : Nat) (h : List Nat) (pre : List Memory),
      (∀ k (hk : k < (runActive cfg ctx h (lastTen pre) fuel).trace.length),
        ((runActive cfg ctx h (lastTen pre) fuel).trace.get ⟨k, hk⟩).2
          = lastTen (pre ++ memSeq ctx h (k + 1)))
      ∧ (runActive cfg ctx h (lastTen pre) fuel).buffer
          = lastTen (pre ++ memSeq ctx h (runActive cfg ctx h (lastTen pre) fuel).trace.length) := by
  intro fuel
  induction fuel with
  | zero =>
    intro h pre
    rw [runActive_zero]
    constructor
    · intro k hk
      simp only [List.length_nil] at hk
      omega
    · simp [memSeq_zero]
  | succ fuel ih =>
    intro h pre
    rcases hs : iterStep ctx h with _ | r
    · rw [runActive_succ_none cfg ctx h _ fuel hs]
      constructor
      · intro k hk
        simp only [List.length_nil] at hk
        omega
      · simp [memSeq_zero]
    · have hpush := pushMem_lastTen pre r.memory
      have hm1 : memSeq ctx h 1 = [r.memory] := by
        rw [memSeq_succ_some ctx h 0 r hs, memSeq_zero]
      rw [runActive_succ_some cfg ctx h _ fuel r hs]
      by_cases hc : r.coherence < cfg.coherence_min
      · rw [if_pos hc]
        constructor
        · intro k hk
          simp only [List.length_cons, List.length_nil] at hk
          have hk0 : k = 0 := by omega
          subst hk0
          simp only [List.get]
          rw [hpush, hm1]
        · simp only [List.length_cons, List.length_nil]
          rw [hpush, hm1]
      · rw [if_neg hc]
        by_cases hv : cfg.volatility_max < r.volatility
        · rw [if_pos hv]
          constructor
          · intro k hk
            simp only [List.length_cons, List.length_nil] at hk
            have hk0 : k = 0 := by omega
            subst hk0
            simp only [List.get]
            rw [hpush, hm1]
          · simp only [List.length_cons, List.length_nil]
            rw [hpush, hm1]
        · rw [if_neg hv]
          have ih2 := ih r.nextHash (pre ++ [r.memory])
          rw [← hpush] at ih2
          constructor
          · intro k hk
            rcases k with _ | k
            · simp only [List.get]
              rw [hpush, hm1]
            · simp only [List.length_cons] at hk
              have hk2 : k < (runActive cfg ctx r.nextHash (pushMem (lastTen pre) r.memory) fuel).trace.length := by
                omega
              rw [List.get_cons_succ]
              rw [ih2.1 k hk2]
              rw [memSeq_succ_some ctx h (k + 1) r hs, ← List.append_cons]
          · simp only [List.length_cons]
            rw [ih2.2]
            rw [memSeq_succ_some ctx h _ r hs, ← List.append_cons]

/-- Every recorded iteration of the ACTIVE loop was computed by `iterStep`
from the digest chain: the values are recomputed from the state digest each
iteration, not carried over. -/
theorem runActive_trace_chain (cfg : EngineConfig) (ctx : RunCtx) :
    ∀ (fuel : Nat) (h : List Nat) (buf : List Memory) (k : Nat)
      (p : IterRecord × List Memory),
      (runActive cfg ctx h buf fuel).trace[k]? = some p →
      iterStep ctx (hashBefore ctx h k) = some p.1 := by
  intro fuel
  induction fuel with
  | zero =>
    intro h buf k p hp
    rw [runActive_zero] at hp
    simp at hp
  | succ fuel ih =>
    intro h buf k p hp
    rcases hs : iterStep ctx h with _ | r
    · rw [runActive_succ_none cfg ctx h buf fuel hs] at hp
      simp at hp
    · rw [runActive_succ_some cfg ctx h buf fuel r hs] at hp
      by_cases hc : r.coherence < cfg.coherence_min
      · rw [if_pos hc] at hp
        rcases k with _ | k
        · simp only [List.getElem?_cons_zero, Option.some_inj] at hp
          rw [hashBefore_zero, hs, ← hp]
        · simp at hp
      · rw [if_neg hc] at hp
        by_cases hv : cfg.volatility_max < r.volatility
        · rw [if_pos hv] at hp
          rcases k with _ | k
          · simp only [List.getElem?_cons_zero, Option.some_inj] at hp
            rw [hashBefore_zero, hs, ← hp]
          · simp at hp
        · rw [if_neg hv] at hp
          rcases k with _ | k
          · simp only [List.getElem?_cons_zero, Option.some_inj] at hp
            rw [hashBefore_zero, hs, ← hp]
          · simp only [List.getElem?_cons_succ] at hp
            rw [hashBefore_succ_some ctx h k r hs]
            exact ih r.nextHash (pushMem buf r.memory) k p hp

/-- Exit characterisation of the ACTIVE loop, under a step that always
succeeds: the reason is one of the three threshold reasons; no iteration
before the last breaches a threshold; the reason is `cascade` exactly when
the last iteration breaches the coherence floor, `decoherence` exactly when
it passes the floor but breaches the volatility ceiling, and `timeout`
exactly when all `fuel` iterations ran without a breach. -/
theorem runActive_exit (cfg : EngineConfig) (ctx : RunCtx)
    (hstep : ∀ h, (iterStep ctx h).isSome) :
    ∀ (fuel : Nat) (h : List Nat) (buf : List Memory),
      ((runActive cfg ctx h buf fuel).reason = .cascade
        ∨ (runActive cfg ctx h buf fuel).reason = .decoherence
        ∨ (runActive cfg ctx h buf fuel).reason = .timeout)
      ∧ (∀ p ∈ (runActive cfg ctx h buf fuel).trace.dropLast, noBreach cfg p.1)
      ∧ ((runActive cfg ctx h buf fuel).reason = .cascade ↔
          ∃ p, (runActive cfg ctx h buf fuel).trace.getLast? = some p
            ∧ p.1.coherence < cfg.coherence_min)
      ∧ ((runActive cfg ctx h buf fuel).reason = .decoherence ↔
          ∃ p, (runActive cfg ctx h buf fuel).trace.getLast? = some p
            ∧ ¬ p.1.coherence < cfg.coherence_min
            ∧ cfg.volatility_max < p.1.volatility)
      ∧ ((runActive cfg ctx h buf fuel).reason = .timeout ↔
          ((runActive cfg ctx h buf fuel).trace.length = fuel
            ∧ ∀ p ∈ (runActive cfg ctx h buf fuel).trace, noBreach cfg p.1)) := by
  intro fuel
  induction fuel with
  | zero =>
    intro h buf
    rw [runActive_zero]
    refine ⟨Or.inr (Or.inr rfl), ?_, ?_, ?_, ?_⟩
    · intro p hp; simp at hp
    · simp
    · simp
    · simp
  | succ fuel ih =>
    intro h buf
    rcases hs2 : iterStep ctx h with _ | r
    · have := hstep h
      rw [hs2] at this
      simp at this
    · rw [runActive_succ_some cfg ctx h buf fuel r hs2]
      by_cases hc : r.coherence < cfg.coherence_min
      · rw [if_pos hc]
        refine ⟨Or.inl rfl, ?_, ?_, ?_, ?_⟩
        · intro p hp; simp at hp
        · simp only [List.getLast?_singleton, Option.some_inj, true_iff]
          exact ⟨(r, pushMem buf r.memory), rfl, hc⟩
        · constructor
          · intro hco; exact absurd hco (by simp)
          · rintro ⟨p, hp, hnc, _⟩
            simp only [List.getLast?_singleton, Option.some_inj] at hp
            subst hp
            exact absurd hc hnc
        · constructor
          · intro hco; exact absurd hco (by simp)
          · rintro ⟨_, hall⟩
            have := hall (r, pushMem buf r.memory) (by simp)
            exact absurd hc this.1
      · rw [if_neg hc]
        by_cases hv : cfg.volatility_max < r.volatility
        · rw [if_pos hv]
          refine ⟨Or.inr (Or.inl rfl), ?_, ?_, ?_, ?_⟩
          · intro p hp; simp at hp
          · constructor
            · intro hco; exact absurd hco (by simp)
            · rintro ⟨p, hp, hpc⟩
              simp only [List.getLast?_singleton, Option.some_inj] at hp
              subst hp
              exact absurd hpc hc
          · simp only [List.getLast?_singleton, Option.some_inj, true_iff]
            exact ⟨(r, pushMem buf r.memory), rfl, hc, hv⟩
          · constructor
            · intro hco; exact absurd hco (by simp)
            · rintro ⟨_, hall⟩
              have := hall (r, pushMem buf r.memory) (by simp)
              exact absurd hv this.2
        · rw [if_neg hv]
          obtain ⟨ihtri, ihdrop, ihcas, ihdec, ihtim⟩ := ih r.nextHash (pushMem buf r.memory)
          dsimp only
          by_cases he : (runActive cfg ctx r.nextHash (pushMem buf r.memory) fuel).trace = []
          · have hrt : (runActive cfg ctx r.nextHash (pushMem buf r.memory) fuel).reason
                = .timeout := by
              rcases ihtri with h1 | h1 | h1
              · obtain ⟨p, hp, _⟩ := ihcas.mp h1
                rw [he] at hp
                simp at hp
              · obtain ⟨p, hp, _⟩ := ihdec.mp h1
                rw [he] at hp
                simp at hp
              · exact h1
            have hf0 : fuel = 0 := by
              have := (ihtim.mp hrt).1
              rw [he] at this
              simp at this
              omega
            subst hf0
            rw [he, hrt]
            refine ⟨Or.inr (Or.inr rfl), ?_, ?_, ?_, ?_⟩
            · intro p hp; simp at hp
            · constructor
              · intro hco; exact absurd hco (by simp)
              · rintro ⟨p, hp, hpc⟩
                simp only [List.getLast?_singleton, Option.some_inj] at hp
                subst hp
                exact absurd hpc hc
            · constructor
              · intro hco; exact absurd hco (by simp)
              · rintro ⟨p, hp, _, hpv⟩
                simp only [List.getLast?_singleton, Option.some_inj] at hp
                subst hp
                exact absurd hpv hv
            · simp only [List.length_cons, List.length_nil, true_iff]
              refine ⟨trivial, ?_⟩
              intro p hp
              simp only [List.mem_singleton] at hp
              subst hp
              exact ⟨hc, hv⟩
          · obtain ⟨p0, tl, htl⟩ : ∃ p0 tl,
                (runActive cfg ctx r.nextHash (pushMem buf r.memory) fuel).trace = p0 :: tl := by
              rcases hx : (runActive cfg ctx r.nextHash (pushMem buf r.memory) fuel).trace with _ | ⟨p0, tl⟩
              · exact absurd hx he
              · exact ⟨p0, tl, rfl⟩
            have hlast : ((r, pushMem buf r.memory)
                  :: (runActive cfg ctx r.nextHash (pushMem buf r.memory) fuel).trace).getLast?
                = (runActive cfg ctx r.nextHash (pushMem buf r.memory) fuel).trace.getLast? := by
              rw [htl]
              exact List.getLast?_cons_cons
            refine ⟨ihtri, ?_, ?_, ?_, ?_⟩
            · intro p hp
              rw [List.dropLast_cons_of_ne_nil he] at hp
              rcases List.mem_cons.mp hp with hp1 | hp2
              · subst hp1; exact ⟨hc, hv⟩
              · exact ihdrop p hp2
            · rw [hlast]
              exact ihcas
            · rw [hlast]
              exact ihdec
            · rw [ihtim]
              simp only [List.length_cons]
              constructor
              · rintro ⟨hlen, hall⟩
                refine ⟨by omega, ?_⟩
                intro p hp
                rcases List.mem_cons.mp hp with hp1 | hp2
                · subst hp1; exact ⟨hc, hv⟩
                · exact hall p hp2
              · rintro ⟨hlen, hall⟩
                refine ⟨by omega, ?_⟩
                intro p hp
                exact hall p (List.mem_cons_of_mem _ hp)

/-! ## The value mixer -/

theorem mix_q_values_eq (n : Nat) (qs : List ℚ) :
    mix_q_values n qs
      = ((qs.zip (mixing_weights n)).map (fun p => p.1 * p.2)).sum + noiseOf qs := rfl

theorem noiseOf_bounds (qs : List ℚ) : -(1/20) ≤ noiseOf qs ∧ noiseOf qs ≤ 1/20 := by
  unfold noiseOf
  have h0 := hashUnit_nonneg (pyListRepr qs)
  have h1 := hashUnit_le_one (pyListRepr qs)
  constructor <;> linarith

theorem zip_replicate_sum (qs : List ℚ) (w : ℚ) :
    ((qs.zip (List.replicate qs.length w)).map (fun p => p.1 * p.2)).sum
      = (qs.map (fun q => q * w)).sum := by
  induction qs with
  | nil => rfl
  | cons q t ih =>
    simp only [List.length_cons, List.replicate_succ, List.zip_cons_cons,
      List.map_cons, List.sum_cons, ih]

theorem mixing_weights_five : mixing_weights 5 = List.replicate 5 ((1:ℚ)/5) := by
  unfold mixing_weights
  norm_num

theorem mix_replicate (x : ℚ) :
    mix_q_values 5 (List.replicate 5 x) = x + noiseOf (List.replicate 5 x) := by
  rw [mix_q_values_eq, mixing_weights_five]
  have h5 : (List.replicate 5 x).length = 5 := by simp
  rw [show (List.replicate 5 ((1:ℚ)/5)) = List.replicate (List.replicate 5 x).length ((1:ℚ)/5) from by rw [h5]]
  rw [zip_replicate_sum]
  simp only [List.map_replicate, List.sum_replicate]
  congr 1
  simp only [nsmul_eq_mul]
  push_cast
  ring

/-! ## The claims -/

/-- C1: for every seed and non-negative complexity factor, `prime(seed)` is
the hex encoding of the digest obtained by hashing the seed and then
iterating `digest := SHA256(digest || seed)` exactly `complexity_factor`
times; with factor 0 it is a single SHA-256 of the seed, and with factor 1
and seed `"test"` it is `SHA256(SHA256("test") || "test")`. -/
theorem prime_hash_chain (vstr model seed : List Nat) (c : Nat) :
    StateEvaluator.prime ⟨vstr, c, model⟩ seed = hexBytes (specPrimeDigest seed c)
    ∧ StateEvaluator.prime ⟨vstr, 0, model⟩ seed = hexBytes (sha256 seed)
    ∧ StateEvaluator.prime ⟨vstr, 1, model⟩ testSeed
        = hexBytes (sha256 (sha256 testSeed ++ testSeed)) := by
  refine ⟨?_, ?_, ?_⟩
  · show hexBytes (primeLoop seed c (sha256 seed)) = hexBytes (specPrimeDigest seed c)
    rw [primeLoop_eq_spec]
  · show hexBytes (primeLoop seed 0 (sha256 seed)) = hexBytes (sha256 seed)
    rfl
  · show hexBytes (primeLoop testSeed 1 (sha256 testSeed))
        = hexBytes (sha256 (sha256 testSeed ++ testSeed))
    rw [primeLoop_eq_spec]
    rfl

/-- C2: on a 64-character hex state digest and a blob larger than 1024
bytes, `evaluate` selects the 1024-byte window at offset
`int(digest[:16],16) mod (blob_size-1024)` and returns
`SHA256(digest || serialized_lexicon || window)` in hex together with
exactly the 5 agent values
`int(SHA256(next || "_" || i || window[i*200:(i+1)*200])[:8],16)/0xFFFFFFFF`. -/
theorem evaluate_window_agents (vstr model hash : List Nat) (comp : Nat)
    (_hlen : hash.length = 64) (_hhex : ∀ c ∈ hash, isHexChar c = true)
    (hsz : 1024 < model.length) :
    StateEvaluator.evaluate ⟨vstr, comp, model⟩ hash
      = some (specNext vstr model hash,
          (List.range 5).map (specAgent vstr model hash)) :=
  evaluate_eq ⟨vstr, comp, model⟩ hash hsz

/-- Witness for C2: a concrete 64-character hex digest and 1030-byte blob. -/
theorem evaluate_window_agents_witness :
    (List.replicate 64 48 : List Nat).length = 64
    ∧ (∀ c ∈ (List.replicate 64 48 : List Nat), isHexChar c = true)
    ∧ 1024 < (List.replicate 1030 7 : List Nat).length
    ∧ StateEvaluator.evaluate ⟨[9], 0, List.replicate 1030 7⟩ (List.replicate 64 48)
      = some (specNext [9] (List.replicate 1030 7) (List.replicate 64 48),
          (List.range 5).map (specAgent [9] (List.replicate 1030 7) (List.replicate 64 48))) := by
  have h1 : (List.replicate 64 48 : List Nat).length = 64 := by
    rw [List.length_replicate]
  have h2 : ∀ c ∈ (List.replicate 64 48 : List Nat), isHexChar c = true := by
    intro c hc
    rw [List.eq_of_mem_replicate hc]
    rfl
  have h3 : 1024 < (List.replicate 1030 7 : List Nat).length := by
    rw [List.length_replicate]
    omega
  exact ⟨h1, h2, h3, evaluate_window_agents [9] (List.replicate 1030 7) (List.replicate 64 48) 0 h1 h2 h3⟩

/-- C3: `prime` and `evaluate` are deterministic: two evaluators built from
the same lexicon serialization, complexity factor and blob, primed with the
same seed, produce the same initial digest and the same digest/agent-value
sequence under every number of iterated `evaluate` applications. -/
theorem chimera_deterministic (ev₁ ev₂ : StateEvaluator) (seed₁ seed₂ : List Nat)
    (hv : ev₁.vectors_str = ev₂.vectors_str) (hc : ev₁.complexity = ev₂.complexity)
    (hm : ev₁.model_data = ev₂.model_data) (hs : seed₁ = seed₂) :
    ev₁.prime seed₁ = ev₂.prime seed₂
    ∧ ∀ n, evalIter ev₁ (ev₁.prime seed₁) n = evalIter ev₂ (ev₂.prime seed₂) n := by
  obtain ⟨v₁, c₁, m₁⟩ := ev₁
  obtain ⟨v₂, c₂, m₂⟩ := ev₂
  dsimp only at hv hc hm
  subst hv
  subst hc
  subst hm
  subst hs
  exact ⟨rfl, fun n => rfl⟩

/-- Witness for C3 at concrete equal inputs. -/
theorem chimera_deterministic_witness :
    StateEvaluator.prime ⟨[1], 2, [3]⟩ [4] = StateEvaluator.prime ⟨[1], 2, [3]⟩ [4]
    ∧ ∀ n, evalIter ⟨[1], 2, [3]⟩ (StateEvaluator.prime ⟨[1], 2, [3]⟩ [4]) n
        = evalIter ⟨[1], 2, [3]⟩ (StateEvaluator.prime ⟨[1], 2, [3]⟩ [4]) n :=
  chimera_deterministic ⟨[1], 2, [3]⟩ ⟨[1], 2, [3]⟩ [4] [4] rfl rfl rfl rfl

/-- C5: the mixed total is unbounded: for every bound `B` some agent-value
list mixes to above `B` and some to below `B` (so the noise can in
particular push the output outside `[0, 1]`). -/
theorem mixer_unbounded (B : ℚ) :
    (∃ qs, B < mix_q_values 5 qs) ∧ (∃ qs, mix_q_values 5 qs < B) := by
  constructor
  · refine ⟨List.replicate 5 (B + 1), ?_⟩
    rw [mix_replicate]
    have := (noiseOf_bounds (List.replicate 5 (B + 1))).1
    linarith
  · refine ⟨List.replicate 5 (B - 1), ?_⟩
    rw [mix_replicate]
    have := (noiseOf_bounds (List.replicate 5 (B - 1))).2
    linarith

/-- C6: on 5 agent values the mixer returns the weighted sum with the fixed
weights `1/5` plus the hash-derived noise term, and the noise always lies in
`[-0.05, +0.05]`. -/
theorem mixer_weighted_sum_noise (qs : List ℚ) (h5 : qs.length = 5) :
    mix_q_values 5 qs = (qs.map (fun q => q * (1/5))).sum + noiseOf qs
    ∧ -(1/20) ≤ noiseOf qs ∧ noiseOf qs ≤ 1/20 := by
  refine ⟨?_, noiseOf_bounds qs⟩
  rw [mix_q_values_eq, mixing_weights_five, ← h5, zip_replicate_sum]

/-- Witness for C6 at a concrete 5-element list. -/
theorem mixer_weighted_sum_noise_witness :
    ([0, 1, 0, 1, 0] : List ℚ).length = 5
    ∧ (mix_q_values 5 [0, 1, 0, 1, 0]
        = (([0, 1, 0, 1, 0] : List ℚ).map (fun q => q * (1/5))).sum + noiseOf [0, 1, 0, 1, 0]
      ∧ -(1/20) ≤ noiseOf [0, 1, 0, 1, 0] ∧ noiseOf [0, 1, 0, 1, 0] ≤ 1/20) :=
  ⟨by simp, mixer_weighted_sum_noise [0, 1, 0, 1, 0] (by simp)⟩

/-- C4: with a configured coherence floor of 1.1 the run always fails on
the very first ACTIVE iteration (exactly one `evaluate`), the reason is the
coherence-collapse reason, and its reported string is
`"Resonance Cascade (Coherence Collapse)"` — since coherence is always at
most 1 it can never reach 1.1. -/
theorem coherence_floor_unsatisfiable (cfg : EngineConfig) (inp : EngineInputs)
    (hfloor : cfg.coherence_min = 11/10) (hiter : 1 ≤ cfg.max_iterations)
    (hnames : inp.names ≠ []) (hblob : 1024 < inp.model_data.length) :
    (engineRun cfg inp).2.reason = .cascade
    ∧ (engineRun cfg inp).2.trace.length = 1
    ∧ reasonText (engineRun cfg inp).2.reason
        = "Resonance Cascade" ++ " (Coherence Collapse)" := by
  have hrun : (engineRun cfg inp).2
      = runActive cfg (mkCtx cfg inp) ((mkCtx cfg inp).ev.prime inp.seed) []
          cfg.max_iterations := rfl
  have hnp : (mkCtx cfg inp).numParams ≠ 0 := by
    show (dedupKeepFirst inp.names).length ≠ 0
    intro h0
    exact dedupKeepFirst_ne_nil inp.names hnames (List.length_eq_zero.mp h0)
  have hsz : 1024 < (mkCtx cfg inp).ev.model_data.length := hblob
  obtain ⟨m, hm⟩ : ∃ m, cfg.max_iterations = m + 1 := ⟨cfg.max_iterations - 1, by omega⟩
  obtain ⟨r, hr⟩ := Option.isSome_iff_exists.mp
    (iterStep_isSome (mkCtx cfg inp) ((mkCtx cfg inp).ev.prime inp.seed) hnp hsz)
  have hb := iterStep_bounds (mkCtx cfg inp) ((mkCtx cfg inp).ev.prime inp.seed) r hr hsz
  have hclt : r.coherence < cfg.coherence_min := by
    rw [hfloor]
    have := hb.2.2
    linarith
  rw [hrun, hm, runActive_succ_some cfg (mkCtx cfg inp) _ [] m r hr, if_pos hclt]
  exact ⟨rfl, rfl, rfl⟩

/-- Witness for C4 at a concrete configuration with floor 1.1. -/
theorem coherence_floor_unsatisfiable_witness :
    (⟨0, 1, 11/10, 1⟩ : EngineConfig).coherence_min = 11/10
    ∧ 1 ≤ (⟨0, 1, 11/10, 1⟩ : EngineConfig).max_iterations
    ∧ ([[97]] : List (List Nat)) ≠ []
    ∧ 1024 < (List.replicate 1025 0 : List Nat).length
    ∧ (engineRun ⟨0, 1, 11/10, 1⟩ ⟨[5], [[97]], List.replicate 1025 0⟩).2.reason
        = .cascade :=
  ⟨rfl, le_refl 1, by simp, by rw [List.length_replicate]; omega,
   (coherence_floor_unsatisfiable ⟨0, 1, 11/10, 1⟩ ⟨[5], [[97]], List.replicate 1025 0⟩
     rfl (le_refl 1) (by simp) (by rw [List.length_replicate]; omega)).1⟩

/-- C7: every `evaluate` call on a blob larger than 1024 bytes returns an
ordered list of exactly 5 agent values, each in `[0, 1]`; and every ACTIVE
iteration's agent values are recomputed by `evaluate` from the digest the
iteration starts from, never carried over between iterations. -/
theorem agents_five_bounded (cfg : EngineConfig) (inp : EngineInputs)
    (ev : StateEvaluator) (hash : List Nat) (hsz : 1024 < ev.model_data.length) :
    (∃ next qs, ev.evaluate hash = some (next, qs) ∧ qs.length = 5
      ∧ ∀ q ∈ qs, 0 ≤ q ∧ q ≤ 1)
    ∧ (∀ k p, (engineRun cfg inp).2.trace[k]? = some p →
        p.1.agents = agentsFromDigest (mkCtx cfg inp)
          (hashBefore (mkCtx cfg inp) ((mkCtx cfg inp).ev.prime inp.seed) k)) := by
  constructor
  · refine ⟨specNext ev.vectors_str ev.model_data hash,
      (List.range 5).map (specAgent ev.vectors_str ev.model_data hash),
      evaluate_eq ev hash hsz, by simp, ?_⟩
    intro q hq
    simp only [List.mem_map, List.mem_range] at hq
    obtain ⟨i, _, rfl⟩ := hq
    exact ⟨specAgent_nonneg _ _ _ _, specAgent_le_one _ _ _ _⟩
  · intro k p hp
    have hrun : (engineRun cfg inp).2
        = runActive cfg (mkCtx cfg inp) ((mkCtx cfg inp).ev.prime inp.seed) []
            cfg.max_iterations := rfl
    rw [hrun] at hp
    have hchain := runActive_trace_chain cfg (mkCtx cfg inp) cfg.max_iterations
      ((mkCtx cfg inp).ev.prime inp.seed) [] k p hp
    unfold agentsFromDigest
    rw [hchain]

/-- Witness for C7 at a concrete evaluator with a 1025-byte blob. -/
theorem agents_five_bounded_witness :
    1024 < (List.replicate 1025 0 : List Nat).length
    ∧ (∃ next qs, StateEvaluator.evaluate ⟨[], 0, List.replicate 1025 0⟩ [] = some (next, qs)
        ∧ qs.length = 5 ∧ ∀ q ∈ qs, 0 ≤ q ∧ q ≤ 1) :=
  ⟨by rw [List.length_replicate]; omega,
   (agents_five_bounded ⟨0, 1, 1/2, 1⟩ ⟨[], [], []⟩ ⟨[], 0, List.replicate 1025 0⟩ []
     (by rw [List.length_replicate]; omega)).1⟩

/-- C8: after every ACTIVE iteration the replay buffer holds the last (at
most ten) iteration memories in iteration order — the snapshot after
iteration `k` is exactly the last ten of the first `k+1` memories, so the
oldest entry is evicted once the buffer is full — and the final buffer is
the last ten of all executed iterations. -/
theorem replay_buffer_ring (cfg : EngineConfig) (inp : EngineInputs) :
    (∀ k (hk : k < (engineRun cfg inp).2.trace.length),
        ((engineRun cfg inp).2.trace.get ⟨k, hk⟩).2
          = lastTen (memSeq (mkCtx cfg inp) ((mkCtx cfg inp).ev.prime inp.seed) (k + 1))
        ∧ ((engineRun cfg inp).2.trace.get ⟨k, hk⟩).2.length ≤ 10)
    ∧ (engineRun cfg inp).2.buffer
        = lastTen (memSeq (mkCtx cfg inp) ((mkCtx cfg inp).ev.prime inp.seed)
            (engineRun cfg inp).2.trace.length) := by
  have hrun : (engineRun cfg inp).2
      = runActive cfg (mkCtx cfg inp) ((mkCtx cfg inp).ev.prime inp.seed) []
          cfg.max_iterations := rfl
  have hb := runActive_buffer cfg (mkCtx cfg inp) cfg.max_iterations
    ((mkCtx cfg inp).ev.prime inp.seed) []
  rw [show lastTen [] = ([] : List Memory) from rfl] at hb
  simp only [List.nil_append] at hb
  rw [hrun]
  constructor
  · intro k hk
    refine ⟨hb.1 k hk, ?_⟩
    rw [hb.1 k hk]
    exact lastTen_length_le _
  · exact hb.2

/-- Witness for C8 at a concrete run. -/
theorem replay_buffer_ring_witness :
    (engineRun ⟨0, 3, 1/2, 1⟩ ⟨[2], [[97]], List.replicate 1030 0⟩).2.buffer
      = lastTen (memSeq (mkCtx ⟨0, 3, 1/2, 1⟩ ⟨[2], [[97]], List.replicate 1030 0⟩)
          ((mkCtx ⟨0, 3, 1/2, 1⟩ ⟨[2], [[97]], List.replicate 1030 0⟩).ev.prime [2])
          (engineRun ⟨0, 3, 1/2, 1⟩ ⟨[2], [[97]], List.replicate 1030 0⟩).2.trace.length) :=
  (replay_buffer_ring ⟨0, 3, 1/2, 1⟩ ⟨[2], [[97]], List.replicate 1030 0⟩).2

/-- C9: the engine states progress linearly IDLE → BOOTSTRAP → KERNEL_INIT →
PRIMING → ACTIVE → CRITICAL with CRITICAL terminal; the ACTIVE loop ends
exactly on the first coherence breach, volatility breach, or on reaching
`max_iterations`, each ending the run in CRITICAL with one of three distinct
reported reasons, with no recovery after the first breach. -/
theorem state_machine_linear (cfg : EngineConfig) (inp : EngineInputs)
    (hnames : inp.names ≠ []) (hblob : 1024 < inp.model_data.length) :
    (engineRun cfg inp).1 = [State.IDLE, State.BOOTSTRAP, State.KERNEL_INIT,
        State.PRIMING, State.ACTIVE, State.CRITICAL]
    ∧ ((engineRun cfg inp).2.reason = .cascade
        ∨ (engineRun cfg inp).2.reason = .decoherence
        ∨ (engineRun cfg inp).2.reason = .timeout)
    ∧ (∀ p ∈ (engineRun cfg inp).2.trace.dropLast, noBreach cfg p.1)
    ∧ ((engineRun cfg inp).2.reason = .cascade ↔
        ∃ p, (engineRun cfg inp).2.trace.getLast? = some p
          ∧ p.1.coherence < cfg.coherence_min)
    ∧ ((engineRun cfg inp).2.reason = .decoherence ↔
        ∃ p, (engineRun cfg inp).2.trace.getLast? = some p
          ∧ ¬ p.1.coherence < cfg.coherence_min
          ∧ cfg.volatility_max < p.1.volatility)
    ∧ ((engineRun cfg inp).2.reason = .timeout ↔
        ((engineRun cfg inp).2.trace.length = cfg.max_iterations
          ∧ ∀ p ∈ (engineRun cfg inp).2.trace, noBreach cfg p.1))
    ∧ reasonText .cascade ≠ reasonText .decoherence
    ∧ reasonText .cascade ≠ reasonText .timeout
    ∧ reasonText .decoherence ≠ reasonText .timeout := by
  have hnp : (mkCtx cfg inp).numParams ≠ 0 := by
    show (dedupKeepFirst inp.names).length ≠ 0
    intro h0
    exact dedupKeepFirst_ne_nil inp.names hnames (List.length_eq_zero.mp h0)
  have hsz : 1024 < (mkCtx cfg inp).ev.model_data.length := hblob
  have hstep : ∀ h, (iterStep (mkCtx cfg inp) h).isSome :=
    fun h => iterStep_isSome (mkCtx cfg inp) h hnp hsz
  have hex := runActive_exit cfg (mkCtx cfg inp) hstep cfg.max_iterations
    ((mkCtx cfg inp).ev.prime inp.seed) []
  have hrun : (engineRun cfg inp).2
      = runActive cfg (mkCtx cfg inp) ((mkCtx cfg inp).ev.prime inp.seed) []
          cfg.max_iterations := rfl
  rw [hrun]
  exact ⟨rfl, hex.1, hex.2.1, hex.2.2.1, hex.2.2.2.1, hex.2.2.2.2,
    by decide, by decide, by decide⟩

/-- Witness for C9 at a concrete run. -/
theorem state_machine_linear_witness :
    ([[97]] : List (List Nat)) ≠ []
    ∧ 1024 < (List.replicate 1030 0 : List Nat).length
    ∧ (engineRun ⟨0, 3, 1/2, 1⟩ ⟨[], [[97]], List.replicate 1030 0⟩).1
      = [State.IDLE, State.BOOTSTRAP, State.KERNEL_INIT, State.PRIMING,
         State.ACTIVE, State.CRITICAL] :=
  ⟨by simp, by rw [List.length_replicate]; omega,
   (state_machine_linear ⟨0, 3, 1/2, 1⟩ ⟨[], [[97]], List.replicate 1030 0⟩
     (by simp) (by rw [List.length_replicate]; omega)).1⟩

/-- C10: with a blob strictly larger than 1024 bytes the derived read index
exists, lies in `[0, blob_size - 1025]`, the extracted window is exactly
1024 bytes and `evaluate` succeeds; with a blob of exactly 1024 bytes the
offset computation divides by zero and `evaluate` fails. -/
theorem evaluate_window_safety (ev : StateEvaluator) (hash : List Nat) :
    (1024 < ev.model_data.length →
      ev.readIndex? hash = some ((specReadIndex ev.model_data hash : Nat) : Int)
      ∧ specReadIndex ev.model_data hash ≤ ev.model_data.length - 1025
      ∧ (specWindow ev.model_data hash).length = 1024
      ∧ (ev.evaluate hash).isSome)
    ∧ (ev.model_data.length = 1024 →
      ev.readIndex? hash = none ∧ ev.evaluate hash = none) := by
  constructor
  · intro h
    refine ⟨readIndex_of_big ev hash h, specReadIndex_le _ _ h,
      specWindow_length _ _ h, ?_⟩
    rw [evaluate_eq ev hash h]
    rfl
  · intro h
    have hri : ev.readIndex? hash = none := by
      unfold StateEvaluator.readIndex?
      rw [if_pos (by rw [h]; norm_num)]
    refine ⟨hri, ?_⟩
    unfold StateEvaluator.evaluate
    rw [hri]

/-- Witness for C10: a 1025-byte blob succeeds, a 1024-byte blob divides by
zero. -/
theorem evaluate_window_safety_witness :
    (StateEvaluator.evaluate ⟨[], 0, List.replicate 1025 3⟩ []).isSome
    ∧ StateEvaluator.evaluate ⟨[], 0, List.replicate 1024 3⟩ [] = none :=
  ⟨((evaluate_window_safety ⟨[], 0, List.replicate 1025 3⟩ []).1
      (by rw [List.length_replicate]; omega)).2.2.2,
   ((evaluate_window_safety ⟨[], 0, List.replicate 1024 3⟩ []).2
      (by rw [List.length_replicate])).2⟩

end Chimera